import Mathlib

/-!
# Verification of the Silence pipeline (Silence.py)

Shallow embedding of the pure core of the silence-trimming pipeline:
silence-interval pairing (`detect_silence`), interval inversion
(`compute_nonsilent_intervals`), segment naming (`cut_video_segments`),
manifest construction (`concat_segments`' file list), and the error flow of
`main`.  Times are modelled as rationals; the Python code uses floats but the
algorithm only subtracts and compares, so the arithmetic carries over
unchanged.
-/

namespace Silence

/-- One line of the detector's textual output, abstracted: `start_match` is
the captured timestamp when the line contains `silence_start` and the
timestamp pattern matches (lines 28-31 of `Silence.py`), `end_match`
likewise for `silence_end` (lines 32-35).  A line with no marker, or whose
marker has no parseable timestamp, carries `none`. -/
structure LogLine where
  start_match : Option ℚ
  end_match : Option ℚ

/-- The list `silence_starts` accumulated by the line scan in
`detect_silence` (lines 27-31). -/
def silence_starts_of (output : List LogLine) : List ℚ :=
  output.filterMap LogLine.start_match

/-- The list `silence_ends` accumulated by the line scan in
`detect_silence` (lines 27-35). -/
def silence_ends_of (output : List LogLine) : List ℚ :=
  output.filterMap LogLine.end_match

/-- The pairing loop of `detect_silence` (lines 36-39):
`for i in range(min(len(silence_starts), len(silence_ends))):
intervals.append((silence_starts[i], silence_ends[i]))`. -/
def detect_silence (output : List LogLine) : List (ℚ × ℚ) :=
  let silence_starts := silence_starts_of output
  let silence_ends := silence_ends_of output
  (List.range (min silence_starts.length silence_ends.length)).map
    fun i => (silence_starts.getD i 0, silence_ends.getD i 0)

/-- One iteration of the loop body in `compute_nonsilent_intervals`
(lines 82-86): state is `(intervals, prev_end)`; if
`start - prev_end > min_gap` the keep interval `(prev_end, start)` is
appended, and `prev_end` advances to the silence interval's end. -/
def invertStep (min_gap : ℚ) (acc : List (ℚ × ℚ) × ℚ) (silence : ℚ × ℚ) :
    List (ℚ × ℚ) × ℚ :=
  (if silence.1 - acc.2 > min_gap then acc.1 ++ [(acc.2, silence.1)] else acc.1,
   silence.2)

/-- `compute_nonsilent_intervals` (lines 76-89): sweep the silence intervals
with `prev_end` starting at `0.0`, then append the final span
`(prev_end, video_duration)` when `video_duration - prev_end > min_gap`.
The Python default `min_gap=0.1` is kept as a default argument. -/
def compute_nonsilent_intervals (silence_intervals : List (ℚ × ℚ))
    (video_duration : ℚ) (min_gap : ℚ := 1/10) : List (ℚ × ℚ) :=
  let r := silence_intervals.foldl (invertStep min_gap) ([], 0)
  if video_duration - r.2 > min_gap then r.1 ++ [(r.2, video_duration)] else r.1

/-- Recursive form of the sweep in `compute_nonsilent_intervals`: emitted
intervals in order, given the current `prev_end`.  Used to reason about the
`foldl` accumulation by induction. -/
def invertLoop (min_gap video_duration : ℚ) : ℚ → List (ℚ × ℚ) → List (ℚ × ℚ)
  | prev_end, [] =>
      if video_duration - prev_end > min_gap then [(prev_end, video_duration)]
      else []
  | prev_end, s :: rest =>
      (if s.1 - prev_end > min_gap then [(prev_end, s.1)] else []) ++
        invertLoop min_gap video_duration s.2 rest

theorem foldl_invertStep (g dur : ℚ) :
    ∀ (l : List (ℚ × ℚ)) (acc : List (ℚ × ℚ)) (prev : ℚ),
      (if dur - (l.foldl (invertStep g) (acc, prev)).2 > g
        then (l.foldl (invertStep g) (acc, prev)).1 ++
          [((l.foldl (invertStep g) (acc, prev)).2, dur)]
        else (l.foldl (invertStep g) (acc, prev)).1)
      = acc ++ invertLoop g dur prev l := by
  intro l
  induction l with
  | nil =>
      intro acc prev
      by_cases h : dur - prev > g <;> simp [invertLoop, h]
  | cons s rest ih =>
      intro acc prev
      by_cases h : s.1 - prev > g <;>
        simp [invertStep, h, invertLoop, ih, List.append_assoc]

/-- The `foldl` formulation of the source equals the recursive sweep. -/
theorem compute_eq_invertLoop (l : List (ℚ × ℚ)) (dur g : ℚ) :
    compute_nonsilent_intervals l dur g = invertLoop g dur 0 l := by
  have h := foldl_invertStep g dur l [] 0
  simpa [compute_nonsilent_intervals] using h

/-- Well-formedness of a silence report relative to the total duration, as
guaranteed by the detector (spec §3, §4.3): intervals sorted by start and
non-overlapping, each with `0 ≤ start < end ≤ total_duration`. -/
def SilenceWF (silence : List (ℚ × ℚ)) (dur : ℚ) : Prop :=
  silence.Pairwise (fun p q => p.2 ≤ q.1) ∧
  ∀ p ∈ silence, 0 ≤ p.1 ∧ p.1 < p.2 ∧ p.2 ≤ dur

/-- Master invariant of the sweep: given a sorted, non-overlapping tail of
silence intervals all lying at or after `prev`, every emitted keep interval
starts at or after `prev` and is longer than `min_gap`; the emitted intervals
are pairwise ordered; and each emitted interval is interior-disjoint from
every remaining silence interval. -/
theorem invertLoop_spec (g dur : ℚ) :
    ∀ (l : List (ℚ × ℚ)) (prev : ℚ),
      l.Pairwise (fun p q => p.2 ≤ q.1) →
      (∀ p ∈ l, p.1 < p.2) →
      (∀ p ∈ l, prev ≤ p.1) →
      (∀ p ∈ invertLoop g dur prev l, prev ≤ p.1 ∧ g < p.2 - p.1) ∧
      (invertLoop g dur prev l).Pairwise (fun p q => p.2 ≤ q.1) ∧
      (∀ p ∈ invertLoop g dur prev l, ∀ q ∈ l, p.2 ≤ q.1 ∨ q.2 ≤ p.1) := by
  intro l
  induction l with
  | nil =>
      intro prev _ _ _
      refine ⟨?_, ?_, ?_⟩
      · intro p hp
        by_cases h : dur - prev > g
        · simp only [invertLoop, if_pos h, List.mem_singleton] at hp
          subst hp
          exact ⟨le_refl _, h⟩
        · simp [invertLoop, h] at hp
      · by_cases h : dur - prev > g <;> simp [invertLoop, h]
      · intro p _ q hq
        simp at hq
  | cons s rest ih =>
      intro prev hpair hvalid hprev
      obtain ⟨hs_rest, hpair_rest⟩ := List.pairwise_cons.mp hpair
      have hs_lt : s.1 < s.2 := hvalid s (List.mem_cons_self s rest)
      have hprev_s : prev ≤ s.1 := hprev s (List.mem_cons_self s rest)
      have hvalid_rest : ∀ p ∈ rest, p.1 < p.2 :=
        fun p hp => hvalid p (List.mem_cons_of_mem s hp)
      obtain ⟨ihA, ihB, ihC⟩ := ih s.2 hpair_rest hvalid_rest hs_rest
      refine ⟨?_, ?_, ?_⟩
      · intro p hp
        simp only [invertLoop, List.mem_append] at hp
        rcases hp with h1 | h2
        · by_cases h : s.1 - prev > g
          · simp only [if_pos h, List.mem_singleton] at h1
            subst h1
            exact ⟨le_refl _, h⟩
          · simp [h] at h1
        · obtain ⟨hA1, hA2⟩ := ihA p h2
          exact ⟨le_trans hprev_s (le_trans hs_lt.le hA1), hA2⟩
      · simp only [invertLoop]
        refine List.pairwise_append.mpr ⟨?_, ihB, ?_⟩
        · by_cases h : s.1 - prev > g <;> simp [h]
        · intro p hp q hq
          by_cases h : s.1 - prev > g
          · simp only [if_pos h, List.mem_singleton] at hp
            subst hp
            have h2 := (ihA q hq).1
            show s.1 ≤ q.1
            linarith
          · simp [h] at hp
      · intro p hp q hq
        simp only [invertLoop, List.mem_append] at hp
        rcases hp with h1 | h2
        · by_cases h : s.1 - prev > g
          · simp only [if_pos h, List.mem_singleton] at h1
            subst h1
            rcases List.mem_cons.mp hq with rfl | hq'
            · exact Or.inl (le_refl _)
            · have := hs_rest q hq'
              exact Or.inl (by show s.1 ≤ q.1; linarith)
          · simp [h] at h1
        · rcases List.mem_cons.mp hq with rfl | hq'
          · exact Or.inr ((ihA p h2).1)
          · exact ihC p h2 q hq'

end Silence

namespace Silence

/-- C1: for a well-formed silence report and `min_gap ≥ 0`, the keep plan's
intervals are each longer than `min_gap`, pairwise non-overlapping, and
strictly increasing in time. -/
theorem keepPlan_invariants (silence : List (ℚ × ℚ)) (dur g : ℚ)
    (hg : 0 ≤ g) (hwf : SilenceWF silence dur) :
    (∀ p ∈ compute_nonsilent_intervals silence dur g, g < p.2 - p.1) ∧
    (compute_nonsilent_intervals silence dur g).Pairwise
      (fun p q => p.2 ≤ q.1 ∧ p.1 < q.1 ∧ p.2 < q.2) := by
  obtain ⟨hpair, hmem⟩ := hwf
  have hvalid : ∀ p ∈ silence, p.1 < p.2 := fun p hp => (hmem p hp).2.1
  have hprev : ∀ p ∈ silence, (0:ℚ) ≤ p.1 := fun p hp => (hmem p hp).1
  obtain ⟨hA, hB, _⟩ := invertLoop_spec g dur silence 0 hpair hvalid hprev
  rw [compute_eq_invertLoop]
  refine ⟨fun p hp => (hA p hp).2, ?_⟩
  refine List.Pairwise.imp_of_mem ?_ hB
  intro p q hp hq h
  have h1 := (hA p hp).2
  have h2 := (hA q hq).2
  exact ⟨h, by linarith, by linarith⟩

/-- C1 witness: the invariants hold at the Scenario A input. -/
theorem keepPlan_invariants_witness :
    (∀ p ∈ compute_nonsilent_intervals [((5:ℚ), 7), (20, 21)] 30 (1/10),
      (1:ℚ)/10 < p.2 - p.1) ∧
    (compute_nonsilent_intervals [((5:ℚ), 7), (20, 21)] 30 (1/10)).Pairwise
      (fun p q => p.2 ≤ q.1 ∧ p.1 < q.1 ∧ p.2 < q.2) :=
  keepPlan_invariants [((5:ℚ), 7), (20, 21)] 30 (1/10) (by norm_num)
    (by constructor
        · norm_num [List.pairwise_cons]
        · intro p hp
          fin_cases hp <;> norm_num)

/-- C9: every keep interval is interior-disjoint from every silence interval
of a well-formed report — they may share only endpoints. -/
theorem keep_silence_disjoint (silence : List (ℚ × ℚ)) (dur g : ℚ)
    (hwf : SilenceWF silence dur) :
    ∀ p ∈ compute_nonsilent_intervals silence dur g, ∀ q ∈ silence,
      p.2 ≤ q.1 ∨ q.2 ≤ p.1 := by
  obtain ⟨hpair, hmem⟩ := hwf
  have hvalid : ∀ p ∈ silence, p.1 < p.2 := fun p hp => (hmem p hp).2.1
  have hprev : ∀ p ∈ silence, (0:ℚ) ≤ p.1 := fun p hp => (hmem p hp).1
  obtain ⟨_, _, hC⟩ := invertLoop_spec g dur silence 0 hpair hvalid hprev
  rw [compute_eq_invertLoop]
  exact hC

/-- C9 witness: at the Scenario A input, the keep interval `(0,5)` is
interior-disjoint from the silence interval `(5,7)`. -/
theorem keep_silence_disjoint_witness :
    ((0:ℚ), (5:ℚ)).2 ≤ ((5:ℚ), (7:ℚ)).1 ∨ ((5:ℚ), (7:ℚ)).2 ≤ ((0:ℚ), (5:ℚ)).1 :=
  keep_silence_disjoint [((5:ℚ), 7), (20, 21)] 30 (1/10)
    (by constructor
        · norm_num [List.pairwise_cons]
        · intro p hp
          fin_cases hp <;> norm_num)
    ((0:ℚ), (5:ℚ))
    (by rw [compute_eq_invertLoop]
        norm_num [invertLoop])
    ((5:ℚ), (7:ℚ)) (by simp)

/-- C2: Scenario A — `silence=[(5,7),(20,21)]`, `duration=30`, `min_gap=0.1`
yields exactly the keep plan `[(0,5),(7,20),(21,30)]`. -/
theorem keepPlan_scenarioA :
    compute_nonsilent_intervals [((5:ℚ), 7), (20, 21)] 30 (1/10)
      = [(0, 5), (7, 20), (21, 30)] := by
  rw [compute_eq_invertLoop]
  norm_num [invertLoop]

/-- C3: an empty silence report yields the single interval
`(0, total_duration)` when `total_duration > min_gap`, and the empty list
when `total_duration ≤ min_gap`. -/
theorem keepPlan_empty_silence (dur g : ℚ) :
    compute_nonsilent_intervals [] dur g
      = if g < dur then [(0, dur)] else [] := by
  simp [compute_nonsilent_intervals, gt_iff_lt]

/-- C4: the `min_gap` comparison is strict.  When the gap between two
consecutive silence intervals equals `min_gap` exactly (`s - b = g`) and the
final span equals `min_gap` exactly (`dur - e = g`), neither keep interval is
emitted: only the possible leading span before the first silence survives. -/
theorem min_gap_strict_drop (g dur a b s e : ℚ)
    (hgap : s - b = g) (hfin : dur - e = g) :
    compute_nonsilent_intervals [(a, b), (s, e)] dur g
      = if g < a then [(0, a)] else [] := by
  rw [compute_eq_invertLoop]
  simp [invertLoop, hgap, hfin, gt_iff_lt, sub_zero, lt_irrefl]

/-- C4 witness: with `min_gap = 0.1`, silence `[(1,2),(2.1,3)]` and duration
`3.1` drop both the exact-`0.1` middle gap and the exact-`0.1` final span. -/
theorem min_gap_strict_drop_witness :
    compute_nonsilent_intervals [((1:ℚ), 2), (21/10, 3)] (31/10) (1/10)
      = if (1:ℚ)/10 < 1 then [(0, 1)] else [] :=
  min_gap_strict_drop (1/10) (31/10) 1 2 (21/10) 3 (by norm_num) (by norm_num)

/-- C5 counterexample: the claim is false on the code.  The keep plan for
silence `[(2.0, 2.05)]` with `min_gap = 0.1` and duration `10` contains the
interval `(0, 2.0)` — ending at `2.0` — and the interval `(2.05, 10)` —
starting at `2.05`: the cut IS produced.  `min_gap` filters short keep spans,
not short silence spans. -/
theorem short_silence_cut_counterexample :
    ((0:ℚ), (2:ℚ)) ∈ compute_nonsilent_intervals [((2:ℚ), 41/20)] 10 (1/10) ∧
    ((41:ℚ)/20, (10:ℚ)) ∈
      compute_nonsilent_intervals [((2:ℚ), 41/20)] 10 (1/10) := by
  have hres : compute_nonsilent_intervals [((2:ℚ), 41/20)] 10 (1/10)
      = [(0, 2), (41/20, 10)] := by
    rw [compute_eq_invertLoop]
    norm_num [invertLoop]
  rw [hres]
  constructor <;> simp

/-- C5 amended: the silence interval `(2.0, 2.05)` with `min_gap = 0.1` DOES
produce a cut at that point — whenever the remaining duration after `2.05`
exceeds `min_gap`, the keep plan is exactly `[(0, 2.0), (2.05, dur)]`, with an
interval ending at `2.0` and an interval starting at `2.05`. -/
theorem short_silence_still_cut (dur : ℚ) (h : dur - 41/20 > 1/10) :
    compute_nonsilent_intervals [((2:ℚ), 41/20)] dur (1/10)
      = [(0, 2), (41/20, dur)] := by
  rw [compute_eq_invertLoop]
  norm_num [invertLoop, h]

/-- C5 amended witness: at duration `10`. -/
theorem short_silence_still_cut_witness :
    compute_nonsilent_intervals [((2:ℚ), 41/20)] 10 (1/10)
      = [(0, 2), (41/20, 10)] :=
  short_silence_still_cut 10 (by norm_num)

/-- Raising the threshold can only drop emitted intervals: the sweep's
`prev_end` state never depends on `min_gap`. -/
theorem invertLoop_sublist (dur g1 g2 : ℚ) (h : g1 ≤ g2) :
    ∀ (l : List (ℚ × ℚ)) (prev : ℚ),
      (invertLoop g2 dur prev l).Sublist (invertLoop g1 dur prev l) := by
  intro l
  induction l with
  | nil =>
      intro prev
      by_cases h2 : dur - prev > g2
      · have h1 : dur - prev > g1 := lt_of_le_of_lt h h2
        simp only [invertLoop, if_pos h1, if_pos h2]
        exact List.Sublist.refl _
      · simp only [invertLoop, if_neg h2]
        exact List.nil_sublist _
  | cons s rest ih =>
      intro prev
      simp only [invertLoop]
      refine List.Sublist.append ?_ (ih s.2)
      by_cases h2 : s.1 - prev > g2
      · have h1 : s.1 - prev > g1 := lt_of_le_of_lt h h2
        simp only [if_pos h1, if_pos h2]
        exact List.Sublist.refl _
      · simp only [if_neg h2]
        exact List.nil_sublist _

/-- C10: `min_gap` acts monotonically as a filter — for `g1 ≤ g2` the keep
plan at `g2` is an order-preserving sublist of the keep plan at `g1`. -/
theorem min_gap_monotone (l : List (ℚ × ℚ)) (dur g1 g2 : ℚ) (h : g1 ≤ g2) :
    (compute_nonsilent_intervals l dur g2).Sublist
      (compute_nonsilent_intervals l dur g1) := by
  rw [compute_eq_invertLoop, compute_eq_invertLoop]
  exact invertLoop_sublist dur g1 g2 h l 0

/-- C10 witness: silence `[(5,7)]`, duration `30`, thresholds `0.1 ≤ 10`. -/
theorem min_gap_monotone_witness :
    (compute_nonsilent_intervals [((5:ℚ), 7)] 30 10).Sublist
      (compute_nonsilent_intervals [((5:ℚ), 7)] 30 (1/10)) :=
  min_gap_monotone [((5:ℚ), 7)] 30 (1/10) 10 (by norm_num)

end Silence

namespace Silence

/-- C6: `detect_silence` returns exactly `min (#starts) (#ends)` intervals,
the `i`-th pairing the `i`-th extracted start with the `i`-th extracted end;
on a log with 3 `silence_start` lines and 2 `silence_end` lines it returns
exactly 2 intervals, dropping the trailing start without error. -/
theorem detect_silence_pairs (output : List LogLine) (i : ℕ) :
    (detect_silence output).length
      = min (silence_starts_of output).length
          (silence_ends_of output).length ∧
    ((detect_silence output)[i]?
      = ((silence_starts_of output)[i]?).bind fun a =>
          ((silence_ends_of output)[i]?).map fun b => (a, b)) ∧
    detect_silence
        [⟨some 1, none⟩, ⟨none, some 2⟩, ⟨some 3, none⟩, ⟨none, some 4⟩,
         ⟨some 5, none⟩]
      = [(1, 2), (3, 4)] := by
  refine ⟨by simp [detect_silence], ?_, by rfl⟩
  simp only [detect_silence]
  rcases lt_or_ge i (min (silence_starts_of output).length
      (silence_ends_of output).length) with h | h
  · have h1 : i < (silence_starts_of output).length :=
      lt_of_lt_of_le h (min_le_left _ _)
    have h2 : i < (silence_ends_of output).length :=
      lt_of_lt_of_le h (min_le_right _ _)
    rw [List.getElem?_map, List.getElem?_range h, List.getElem?_eq_getElem h1,
      List.getElem?_eq_getElem h2]
    simp [List.getD_eq_getElem?_getD, List.getElem?_eq_getElem, h1, h2]
  · rw [List.getElem?_map,
      List.getElem?_eq_none_iff.mpr (by simpa using h)]
    rcases min_le_iff.mp h with h1 | h1
    · rw [List.getElem?_eq_none_iff.mpr h1]
      simp
    · rw [List.getElem?_eq_none_iff.mpr h1]
      simp

end Silence

namespace Silence

/-- The single-quote character used in the manifest lines of
`concat_segments` (line 155 of `Silence.py`). -/
def squote : Char := Char.ofNat 39

/-- Output path of the `idx`-th segment in `cut_video_segments` (line 104):
`os.path.join(temp_dir, f"segment_{idx}.mp4")`. -/
def segment_path (temp_dir : String) (idx : ℕ) : String :=
  temp_dir ++ "/segment_" ++ toString idx ++ ".mp4"

/-- `cut_video_segments` (lines 102-142), restricted to its pure output: one
segment file per keep interval, processed strictly in list order by
`enumerate(intervals)` and named by 0-based ordinal index; the per-segment
ffmpeg invocation is the external collaborator.  Returns the list of segment
paths in processing order. -/
def cut_video_segments (temp_dir : String) (intervals : List (ℚ × ℚ)) :
    List String :=
  intervals.enum.map fun p => segment_path temp_dir p.1

/-- The manifest written by `concat_segments` (lines 151-155), as its list of
lines: one line per segment file, in order, each the quoted segment path
rendered from the template `file udq<seg>udq` with `udq` the single quote. -/
def concat_manifest_lines (segment_files : List String) : List String :=
  segment_files.map fun seg =>
    "file " ++ String.singleton squote ++ seg ++ String.singleton squote

/-- C8: segment files are produced in keep-plan order, the `idx`-th named
`segment_idx.mp4`, and the manifest has one line per segment in that same
order, each carrying the quoted segment path. -/
theorem segments_and_manifest_order (temp_dir : String)
    (intervals : List (ℚ × ℚ)) (idx : ℕ) :
    (cut_video_segments temp_dir intervals).length = intervals.length ∧
    (cut_video_segments temp_dir intervals)[idx]?
      = (if idx < intervals.length then some (segment_path temp_dir idx)
         else none) ∧
    (concat_manifest_lines (cut_video_segments temp_dir intervals))[idx]?
      = (if idx < intervals.length then
          some ("file " ++ String.singleton squote ++
            segment_path temp_dir idx ++ String.singleton squote)
         else none) := by
  have hseg : (cut_video_segments temp_dir intervals)[idx]?
      = (if idx < intervals.length then some (segment_path temp_dir idx)
         else none) := by
    simp only [cut_video_segments, List.getElem?_map, List.getElem?_enum]
    rcases lt_or_ge idx intervals.length with h | h
    · rw [List.getElem?_eq_getElem h]
      simp [h]
    · rw [List.getElem?_eq_none_iff.mpr h]
      simp [not_lt.mpr h]
  refine ⟨by simp [cut_video_segments], hseg, ?_⟩
  rw [concat_manifest_lines, List.getElem?_map, hseg]
  rcases lt_or_ge idx intervals.length with h | h <;>
    simp [h, not_lt.mpr]

end Silence

namespace Silence

/-- `get_video_duration` (lines 41-58), with the external probe and the
`float(duration_str)` parse modelled by their combined result: `none` when
the parse raises `ValueError`, in which case the script exits with status 1
(lines 54-58). -/
def get_video_duration (duration_parse : Option ℚ) : Except ℕ ℚ :=
  match duration_parse with
  | some d => Except.ok d
  | none => Except.error 1

/-- The decision flow of `main` (lines 171-204) around the external calls:
probe the duration (exit status 1 on parse failure), compute the keep plan
with the default `min_gap`, exit with status 1 when the plan is empty
(lines 195-197) — before any segment is cut and before any output file is
written — and otherwise produce the segment paths and the concat manifest. -/
def main_run (silence_intervals : List (ℚ × ℚ)) (duration_parse : Option ℚ)
    (temp_dir : String) : Except ℕ (List String × List String) :=
  match get_video_duration duration_parse with
  | Except.error code => Except.error code
  | Except.ok video_duration =>
    let nonsilent_intervals :=
      compute_nonsilent_intervals silence_intervals video_duration
    if nonsilent_intervals.isEmpty then Except.error 1
    else
      let segment_files := cut_video_segments temp_dir nonsilent_intervals
      Except.ok (segment_files, concat_manifest_lines segment_files)

/-- Definitional unfolding of `main_run` on a successful duration parse. -/
theorem main_run_some (silence : List (ℚ × ℚ)) (d : ℚ) (temp_dir : String) :
    main_run silence (some d) temp_dir
      = if (compute_nonsilent_intervals silence d).isEmpty
        then Except.error 1
        else Except.ok
          (cut_video_segments temp_dir (compute_nonsilent_intervals silence d),
           concat_manifest_lines
             (cut_video_segments temp_dir
               (compute_nonsilent_intervals silence d))) := rfl

/-- C7: the run exits with status 1 exactly when the duration parse fails or
the computed keep plan is empty; Scenario C (`silence=[(0,15)]`,
`duration=15`) hits the empty-plan exit, producing no segments and no
manifest (the error branch carries no output). -/
theorem main_exit_one_conditions (silence : List (ℚ × ℚ)) (d : ℚ)
    (temp_dir : String) :
    main_run silence none temp_dir = Except.error 1 ∧
    (main_run silence (some d) temp_dir = Except.error 1 ↔
      compute_nonsilent_intervals silence d = []) ∧
    main_run [((0:ℚ), 15)] (some 15) temp_dir = Except.error 1 := by
  refine ⟨rfl, ?_, ?_⟩
  · rw [main_run_some]
    by_cases h : (compute_nonsilent_intervals silence d).isEmpty
    · rw [if_pos h]
      exact iff_of_true rfl (List.isEmpty_iff.mp h)
    · rw [if_neg h]
      rw [List.isEmpty_iff] at h
      exact iff_of_false (fun hcon => Except.noConfusion hcon) h
  · have hC : compute_nonsilent_intervals [((0:ℚ), 15)] 15 = [] := by
      rw [compute_eq_invertLoop]
      norm_num [invertLoop]
    rw [main_run_some, hC]
    simp

end Silence
